import Mathlib

/-!
Verification of the Mython interpreter core (lexer and runtime object model).

The definitions below are a shallow embedding of src/mython/lexer.cpp,
src/mython/lexer.h and src/mython/runtime.cpp.  The C++ input stream is
modelled as a `List Char` (putback = keeping the character at the head);
the eagerly materialized token vector is a `List Token`; C++ exceptions
are modelled with `Except`.  The statement executor (`Executable::Execute`)
is an external collaborator of the runtime, so the runtime definitions are
parametrized by an arbitrary execution function `Ex`.
-/

/-- Decidable equality of modelled outcomes, used to settle concrete runs. -/
instance exceptDecEq {ε α : Type} [DecidableEq ε] [DecidableEq α] :
    DecidableEq (Except ε α) := fun a b =>
  match a, b with
  | .ok x, .ok y =>
    if h : x = y then isTrue (by rw [h]) else isFalse (fun hh => h (Except.ok.inj hh))
  | .error x, .error y =>
    if h : x = y then isTrue (by rw [h]) else isFalse (fun hh => h (Except.error.inj hh))
  | .ok _, .error _ => isFalse (fun hh => Except.noConfusion hh)
  | .error _, .ok _ => isFalse (fun hh => Except.noConfusion hh)

namespace parse

/-- Token variants, from lexer.h (namespace token_type and the TokenBase variant). -/
inductive Token where
  | Number (value : Int)
  | Id (value : String)
  | Char (value : Char)
  | String (value : String)
  | Class
  | Return
  | If
  | Else
  | Def
  | Newline
  | Print
  | Indent
  | Dedent
  | And
  | Or
  | Not
  | Eq
  | NotEq
  | LessOrEq
  | GreaterOrEq
  | None
  | True
  | False
  | Eof
deriving DecidableEq, Repr

/-- Failure outcomes of lexer construction.  `LexerError` is parse::LexerError;
`LogicError` is the std::logic_error thrown for an unknown escape sequence in
Lexer::ParseString; `OutOfRangeError` is the std::out_of_range thrown by
std::stoi in Lexer::ParseNumbers; `UninitRead` marks the undefined behaviour of
comparing the uninitialized local ch when a string literal is opened right at
end of stream; `Diverge` marks inputs whose processing needs more loop passes
than the supplied fuel (the C++ while-loop runs forever on some inputs). -/
inductive LexErr where
  | LexerError (msg : String)
  | LogicError (msg : String)
  | OutOfRangeError
  | UninitRead
  | Diverge
deriving DecidableEq, Repr

/-- Lexer state during Lexer::ParseInputStream: the remaining input stream,
the tokens_ vector built so far, and global_indent_counter_. -/
structure LexState where
  input : List Char
  tokens : List Token
  depth : Int
deriving DecidableEq, Repr

/-- Number of iterations of the C++ loop
while (spaces_processed > 0) do spaces_processed -= SPACES_PER_INDENT (= 2)
when it starts from the given value. -/
def indentSteps : Nat → Nat
  | 0 => 0
  | 1 => 1
  | n + 2 => indentSteps n + 1

/-- The check Lexer::ParseIndent performs after the emission loops: raise
LexerError if global_indent_counter_ went negative. -/
def checkDepth (st : LexState) : Except LexErr LexState :=
  if st.depth < 0 then
    .error (.LexerError ("ParseIndent() produced negative global indent: " ++ toString st.depth))
  else .ok st

/-- The indent/dedent emission part of Lexer::ParseIndent: n is the number of
leading spaces just consumed; SPACES_PER_INDENT is 2.  Each loop iteration
subtracts 2 from the surplus, emits one token and moves the counter by one;
indentSteps counts the iterations. -/
def IndentAdjust (st : LexState) (n : Int) : Except LexErr LexState :=
  if st.depth * 2 < n then
    let q := indentSteps (n - st.depth * 2).toNat
    checkDepth { st with tokens := st.tokens ++ List.replicate q Token.Indent, depth := st.depth + q }
  else if n < st.depth * 2 then
    let q := indentSteps (st.depth * 2 - n).toNat
    checkDepth { st with tokens := st.tokens ++ List.replicate q Token.Dedent, depth := st.depth - q }
  else checkDepth st

/-- Lexer::ParseIndent.  Reads the run of leading spaces.  If the stream ends
inside the run nothing is put back (the putback on the eof-and-fail stream is a
silent no-op) and the count still feeds the indent comparison; if the first
non-space is a newline the line is blank and indent handling is skipped;
otherwise the non-space character is put back and the count is compared with
the current depth. -/
def ParseIndent (st : LexState) : Except LexErr LexState :=
  match st.input with
  | [] => .ok st
  | _ :: _ =>
    let n := (st.input.takeWhile (fun c => c = ' ')).length
    let rest := st.input.dropWhile (fun c => c = ' ')
    match rest with
    | '\n' :: _ => .ok { st with input := rest }
    | _ => IndentAdjust { st with input := rest } (n : Int)

/-- Escape sequences recognized by Lexer::ParseString. -/
def escapeChar : Char → Option Char
  | 'n' => some '\n'
  | 't' => some '\t'
  | 'r' => some '\r'
  | '"' => some '"'
  | '\'' => some '\''
  | '\\' => some '\\'
  | _ => none

/-- The scanning loop of Lexer::ParseString after the opening quote op.
readAny records whether the loop body ever read a character: when the stream
ends before the closing quote the C++ code compares op with the last character
read, which is uninitialized when nothing was read at all. -/
def stringScan (op : Char) (readAny : Bool) (acc : List Char) :
    List Char → Except LexErr (List Char × List Char)
  | [] =>
    if readAny then
      .error (.LexerError "ParseString() has exited without find end-of-string character")
    else .error .UninitRead
  | c :: cs =>
    if c = op then .ok (acc, cs)
    else if c = '\\' then
      match cs with
      | [] => .error (.LexerError "ParseString() has encountered unexpected end of stream after a backslash")
      | e :: cs' =>
        match escapeChar e with
        | some r => stringScan op true (acc ++ [r]) cs'
        | none =>
          .error (.LogicError ("ParseString() has encountered unknown escape sequence \\" ++ String.mk [e]))
    else if c = '\n' ∨ c = '\r' then
      .error (.LexerError "ParseString() has encountered NL or CR symbol within a string")
    else stringScan op true (acc ++ [c]) cs

/-- Lexer::ParseString: a token is produced only when the head of the stream
is a single or double quote; otherwise the character is put back untouched. -/
def ParseString (st : LexState) : Except LexErr LexState :=
  match st.input with
  | [] => .ok st
  | c :: rest =>
    if c = '\'' ∨ c = '"' then
      match stringScan c false [] rest with
      | .ok (content, rest') =>
        .ok { st with input := rest', tokens := st.tokens ++ [Token.String (String.mk content)] }
      | .error e => .error e
    else .ok st

/-- The keywords_map_ of lexer.h. -/
def keywordTok : String → Option Token
  | "class" => some Token.Class
  | "return" => some Token.Return
  | "if" => some Token.If
  | "else" => some Token.Else
  | "def" => some Token.Def
  | "print" => some Token.Print
  | "and" => some Token.And
  | "or" => some Token.Or
  | "not" => some Token.Not
  | "None" => some Token.None
  | "True" => some Token.True
  | "False" => some Token.False
  | _ => none

/-- The token Lexer::ParseKeywords emits for an accumulated word: the keyword
variant when reserved, Id otherwise. -/
def idOrKeyword (word : String) : Token :=
  match keywordTok word with
  | some k => k
  | Option.none => Token.Id word

/-- Lexer::ParseKeywords: words start with a letter or underscore and continue
with letters, digits or underscores; reserved words map through keywords_map_,
anything else becomes Id. -/
def ParseKeywords (st : LexState) : LexState :=
  match st.input with
  | [] => st
  | c :: _ =>
    if c.isAlpha || c = '_' then
      let word := String.mk (st.input.takeWhile (fun ch => ch.isAlphanum || ch = '_'))
      let rest := st.input.dropWhile (fun ch => ch.isAlphanum || ch = '_')
      { st with input := rest, tokens := st.tokens ++ [idOrKeyword word] }
    else st

/-- std::ispunct in the C locale: a printable ASCII character that is neither
alphanumeric nor the space. -/
def isPunct (c : Char) : Bool :=
  decide (33 ≤ c.toNat) && decide (c.toNat ≤ 126) && !c.isAlphanum

/-- Lexer::ParseComments: discards from the # through the end of the line and
puts the terminating newline back (when the line ended at end of stream there
is nothing to put back). -/
def ParseComments (st : LexState) : LexState :=
  match st.input with
  | '#' :: _ => { st with input := st.input.dropWhile (fun c => c ≠ '\n') }
  | _ => st

/-- Lexer::ParseChars: punctuation handling with one-character lookahead for
the compound operators, and the dispatch of # to ParseComments. -/
def ParseChars (st : LexState) : LexState :=
  match st.input with
  | [] => st
  | c :: rest =>
    if isPunct c then
      if c = '#' then ParseComments st
      else
        match c, rest with
        | '=', '=' :: r => { st with input := r, tokens := st.tokens ++ [Token.Eq] }
        | '!', '=' :: r => { st with input := r, tokens := st.tokens ++ [Token.NotEq] }
        | '>', '=' :: r => { st with input := r, tokens := st.tokens ++ [Token.GreaterOrEq] }
        | '<', '=' :: r => { st with input := r, tokens := st.tokens ++ [Token.LessOrEq] }
        | _, _ => { st with input := rest, tokens := st.tokens ++ [Token.Char c] }
    else st

/-- Decimal value of a digit run, as computed by std::stoi. -/
def digitsVal (ds : List Char) : Nat :=
  List.foldl (fun acc c => acc * 10 + (c.toNat - 48)) 0 ds

/-- Lexer::ParseNumbers: a run of decimal digits decoded by std::stoi, which
throws std::out_of_range beyond INT_MAX. -/
def ParseNumbers (st : LexState) : Except LexErr LexState :=
  match st.input with
  | [] => .ok st
  | c :: _ =>
    if c.isDigit then
      let ds := st.input.takeWhile Char.isDigit
      let rest := st.input.dropWhile Char.isDigit
      let v := digitsVal ds
      if v ≤ 2147483647 then
        .ok { st with input := rest, tokens := st.tokens ++ [Token.Number (Int.ofNat v)] }
      else .error .OutOfRangeError
    else .ok st

/-- Lexer::TrimSpaces. -/
def TrimSpaces (st : LexState) : LexState :=
  { st with input := st.input.dropWhile (fun c => c = ' ') }

/-- Lexer::ParseNewLine: consumes a raw newline, emits a Newline token unless
the last emitted token already is one (or no token exists yet), then runs the
indent handling on the next physical line. -/
def ParseNewLine (st : LexState) : Except LexErr LexState :=
  match st.input with
  | '\n' :: rest =>
    let toks :=
      match st.tokens.getLast? with
      | Option.none => st.tokens
      | some Token.Newline => st.tokens
      | some _ => st.tokens ++ [Token.Newline]
    ParseIndent { st with input := rest, tokens := toks }
  | _ => .ok st

/-- One pass of the while-loop body of Lexer::ParseInputStream. -/
def lexStep (st : LexState) : Except LexErr LexState :=
  match ParseString st with
  | .error e => .error e
  | .ok st1 =>
    let st2 := ParseKeywords st1
    let st3 := ParseChars st2
    match ParseNumbers st3 with
    | .error e => .error e
    | .ok st4 => ParseNewLine (TrimSpaces st4)

/-- The while (istr) loop of Lexer::ParseInputStream, with explicit fuel:
running out of fuel stands for the loop not terminating within that many
passes. -/
def lexLoop : Nat → LexState → Except LexErr LexState
  | 0, _ => .error .Diverge
  | fuel + 1, st =>
    if st.input.isEmpty then .ok st
    else
      match lexStep st with
      | .error e => .error e
      | .ok st' => lexLoop fuel st'

/-- The closing-Newline step of the end-of-stream finalization: append a
Newline if the token vector is non-empty and does not already end in one. -/
def closeNewline (ts : List Token) : List Token :=
  match ts.getLast? with
  | Option.none => ts
  | some Token.Newline => ts
  | some _ => ts ++ [Token.Newline]

/-- End-of-stream finalization of Lexer::ParseInputStream: the closing Newline
step, one Dedent per open indent level, then Eof. -/
def FinalizeTokens (st : LexState) : List Token :=
  closeNewline st.tokens ++ List.replicate st.depth.toNat Token.Dedent ++ [Token.Eof]

/-- Lexer::ParseInputStream (the whole of lexer construction): initial
TrimSpaces, the tokenization loop, then finalization. -/
def ParseInputStream (fuel : Nat) (input : List Char) : Except LexErr (List Token) :=
  match lexLoop fuel { input := input.dropWhile (fun c => c = ' '), tokens := [], depth := 0 } with
  | .error e => .error e
  | .ok st => .ok (FinalizeTokens st)

/-- The cursor interface over the materialized token vector (tokens_ together
with current_token_it_, as an index). -/
structure Lexer where
  tokens : List Token
  cursor : Nat
deriving DecidableEq, Repr

/-- Lexer::CurrentToken. -/
def CurrentToken (lx : Lexer) : Token :=
  lx.tokens.getD lx.cursor Token.Eof

/-- Lexer::NextToken: if the iterator one past the cursor is the end, return
the current token without moving; otherwise pre-increment and dereference. -/
def NextToken (lx : Lexer) : Lexer × Token :=
  if lx.cursor + 1 = lx.tokens.length then (lx, lx.tokens.getD lx.cursor Token.Eof)
  else ({ lx with cursor := lx.cursor + 1 }, lx.tokens.getD (lx.cursor + 1) Token.Eof)

/-- Contribution of one token to the indent depth. -/
def tokDelta (t : Token) : Int :=
  if t = Token.Indent then 1 else if t = Token.Dedent then -1 else 0

/-- Number of occurrences of a token in a stream. -/
def countTok (t : Token) : List Token → Nat
  | [] => 0
  | x :: xs => (if x = t then 1 else 0) + countTok t xs

/-- Net indent depth of a token stream. -/
def netDepth : List Token → Int
  | [] => 0
  | t :: ts => tokDelta t + netDepth ts

/-- Running-counter check: starting from c, the depth never becomes negative. -/
def prefixBalancedAux : Int → List Token → Bool
  | _, [] => true
  | c, t :: ts => decide (0 ≤ c + tokDelta t) && prefixBalancedAux (c + tokDelta t) ts

/-- In no prefix of the stream do the Dedents outnumber the Indents. -/
def prefixBalanced (ts : List Token) : Bool :=
  prefixBalancedAux 0 ts

/-- The token immediately before the last one. -/
def penultTok (ts : List Token) : Option Token :=
  ts.dropLast.getLast?

/-- Invariant of the token vector and indent counter maintained by the
tokenization loop. -/
def TokInv (ts : List Token) (d : Int) : Prop :=
  d = netDepth ts ∧ prefixBalanced ts = true ∧ countTok Token.Eof ts = 0

end parse

namespace runtime

/-- A method record, from runtime.h as used by runtime.cpp: name, formal
parameter names (excluding the receiver) and the executable body.  The body
type is a parameter β because the statement executor is an external
collaborator; an execution function β → Closure → ObjectHolder is supplied
wherever a body is run. -/
structure Method (β : Type) where
  name : String
  formal_params : List String
  body : β
deriving DecidableEq, Repr

/-- runtime::Class: a name, the own methods_ vector, and the optional
non-owning parent_ pointer, modelled as the parent value itself. -/
inductive Class (β : Type) where
  | mk (name : String) (methods : List (Method β)) (parent : Option (Class β))

/-- The name_ member. -/
def Class.name {β : Type} : Class β → String
  | .mk n _ _ => n

/-- The methods_ member (the class's own methods only). -/
def Class.methods {β : Type} : Class β → List (Method β)
  | .mk _ ms _ => ms

/-- The parent_ member. -/
def Class.parent {β : Type} : Class β → Option (Class β)
  | .mk _ _ p => p

/-- One vftable_ insertion: vftable_[m.name] = &m (overwriting). -/
def insertMethod {β : Type} (tbl : String → Option (Method β)) (m : Method β) :
    String → Option (Method β) :=
  fun k => if k = m.name then some m else tbl k

/-- Sequential vftable_ insertions for a method list, in order. -/
def insertAllMethods {β : Type} (tbl : String → Option (Method β)) :
    List (Method β) → (String → Option (Method β))
  | [] => tbl
  | m :: ms => insertAllMethods (insertMethod tbl m) ms

/-- The vftable_ materialized by Class::Class: when a parent exists its
methods_ vector is inserted first, then the own methods_ override. -/
def Class.vftable {β : Type} : Class β → String → Option (Method β)
  | .mk _ methods parent =>
    let base : String → Option (Method β) :=
      match parent with
      | some p => insertAllMethods (fun _ => none) p.methods
      | Option.none => fun _ => none
    insertAllMethods base methods

/-- Class::GetMethod: lookup in the precomputed vftable_; null when absent. -/
def Class.GetMethod {β : Type} (c : Class β) (name : String) : Option (Method β) :=
  c.vftable name

/-- Modelled from the spec: runtime.h (not in src/) declares Object, the
polymorphic value base class, with the concrete kinds Number, String, Bool,
Class and ClassInstance recognized by the comparison protocol; a
ClassInstance carries its class and a field environment. -/
inductive Object (β : Type) where
  | Number (value : Int)
  | String (value : String)
  | Bool (value : Bool)
  | Class (value : Class β)
  | ClassInstance (cls : Class β) (fields : List (Prod String (Option (Object β))))

/-- Modelled from the spec: runtime.h's ObjectHolder, a shared-ownership
handle that may be empty (the None sentinel).  Ownership and the non-owning
Share view do not affect values, so a handle is just an optional value. -/
abbrev ObjectHolder (β : Type) := Option (Object β)

/-- Modelled from the spec: runtime.h's Closure, a mapping from names to
value handles (std::unordered_map), as an association list with overwriting
insertion. -/
abbrev Closure (β : Type) := List (String × ObjectHolder β)

/-- ObjectHolder::TryAs for the Number kind: null unless the handle holds a
Number. -/
def TryAsNumber {β : Type} : ObjectHolder β → Option Int
  | some (Object.Number v) => some v
  | _ => none

/-- ObjectHolder::TryAs for the String kind. -/
def TryAsString {β : Type} : ObjectHolder β → Option String
  | some (Object.String v) => some v
  | _ => none

/-- ObjectHolder::TryAs for the Bool kind. -/
def TryAsBool {β : Type} : ObjectHolder β → Option Bool
  | some (Object.Bool v) => some v
  | _ => none

/-- ObjectHolder::TryAs for the ClassInstance kind, exposing the class and the
field environment. -/
def TryAsClassInstance {β : Type} : ObjectHolder β → Option (Class β × Closure β)
  | some (Object.ClassInstance c f) => some (c, f)
  | _ => none

/-- ClassInstance::HasMethod: the class resolves the name and the formal
parameter count equals the argument count. -/
def HasMethod {β : Type} (cls : Class β) (method : String) (argc : Nat) : Bool :=
  match cls.GetMethod method with
  | some m => m.formal_params.length == argc
  | Option.none => false

/-- closure[k] = v on a std::unordered_map, as overwriting insertion. -/
def closureSet {β : Type} : Closure β → String → ObjectHolder β → Closure β
  | [], k, v => [(k, v)]
  | (k', v') :: rest, k, v =>
    if k' = k then (k, v) :: rest else (k', v') :: closureSet rest k v

/-- The binding loop of ClassInstance::Call: each formal parameter name is
bound to the corresponding actual argument in order. -/
def bindParams {β : Type} (cl : Closure β) : List String → List (ObjectHolder β) → Closure β
  | [], _ => cl
  | _ :: _, [] => cl
  | p :: ps, a :: as => bindParams (closureSet cl p a) ps as

/-- The environment ClassInstance::Call builds: self bound to a view of the
receiver, then the formal parameters bound to the actuals. -/
def methodClosure {β : Type} (cls : Class β) (fields : Closure β) (m : Method β)
    (args : List (ObjectHolder β)) : Closure β :=
  bindParams [("self", some (Object.ClassInstance cls fields))] m.formal_params args

/-- Runtime failure outcomes: RuntimeError is std::runtime_error; NullDeref
marks the undefined behaviour of dereferencing the null pointer produced by a
failed TryAs downcast. -/
inductive RtErr where
  | RuntimeError (msg : String)
  | NullDeref
deriving DecidableEq, Repr

/-- ClassInstance::Call: requires a method of that name and arity, builds the
environment and delegates to the executor Ex on the method body. -/
def Call {β : Type} (Ex : β → Closure β → ObjectHolder β) (cls : Class β) (fields : Closure β)
    (method : String) (args : List (ObjectHolder β)) : Except RtErr (ObjectHolder β) :=
  match cls.GetMethod method with
  | some m =>
    if m.formal_params.length == args.length then
      .ok (Ex m.body (methodClosure cls fields m args))
    else .error (.RuntimeError "Call for a not defined method")
  | Option.none => .error (.RuntimeError "Call for a not defined method")

/-- runtime::Equal: empty = empty, Number/String/Bool by value, else a
ClassInstance left operand with a unary dunder method handles it, else
RuntimeError.  The result of the dunder call is downcast to Bool and
dereferenced without a check. -/
def Equal {β : Type} (Ex : β → Closure β → ObjectHolder β) (lhs rhs : ObjectHolder β) :
    Except RtErr Bool :=
  if lhs.isNone && rhs.isNone then .ok true
  else
    match TryAsNumber lhs, TryAsNumber rhs with
    | some a, some b => .ok (a == b)
    | _, _ =>
      match TryAsString lhs, TryAsString rhs with
      | some a, some b => .ok (a == b)
      | _, _ =>
        match TryAsBool lhs, TryAsBool rhs with
        | some a, some b => .ok (a == b)
        | _, _ =>
          match TryAsClassInstance lhs with
          | some (cls, fields) =>
            if HasMethod cls "__eq__" 1 then
              match Call Ex cls fields "__eq__" [rhs] with
              | .ok result =>
                match TryAsBool result with
                | some b => .ok b
                | Option.none => .error .NullDeref
              | .error e => .error e
            else .error (.RuntimeError "Cannot compare objects for equality")
          | Option.none => .error (.RuntimeError "Cannot compare objects for equality")

/-- runtime::Less: Number/String/Bool by the order on values, else a
ClassInstance left operand with a unary dunder handles it, else
RuntimeError; same unchecked Bool downcast as Equal. -/
def Less {β : Type} (Ex : β → Closure β → ObjectHolder β) (lhs rhs : ObjectHolder β) :
    Except RtErr Bool :=
  match TryAsNumber lhs, TryAsNumber rhs with
  | some a, some b => .ok (a < b)
  | _, _ =>
    match TryAsString lhs, TryAsString rhs with
    | some a, some b => .ok (a < b)
    | _, _ =>
      match TryAsBool lhs, TryAsBool rhs with
      | some a, some b => .ok (a < b)
      | _, _ =>
        match TryAsClassInstance lhs with
        | some (cls, fields) =>
          if HasMethod cls "__lt__" 1 then
            match Call Ex cls fields "__lt__" [rhs] with
            | .ok result =>
              match TryAsBool result with
              | some b => .ok b
              | Option.none => .error .NullDeref
            | .error e => .error e
          else .error (.RuntimeError "Cannot compare objects for less")
        | Option.none => .error (.RuntimeError "Cannot compare objects for less")

/-- runtime::NotEqual. -/
def NotEqual {β : Type} (Ex : β → Closure β → ObjectHolder β) (lhs rhs : ObjectHolder β) :
    Except RtErr Bool :=
  match Equal Ex lhs rhs with
  | .error e => .error e
  | .ok b => .ok (!b)

/-- runtime::Greater, literally the C++ expression with the short-circuit of
the disjunction and propagation of exceptions: not (Less or Equal). -/
def Greater {β : Type} (Ex : β → Closure β → ObjectHolder β) (lhs rhs : ObjectHolder β) :
    Except RtErr Bool :=
  match Less Ex lhs rhs with
  | .error e => .error e
  | .ok true => .ok false
  | .ok false =>
    match Equal Ex lhs rhs with
    | .error e => .error e
    | .ok b => .ok (!b)

/-- runtime::LessOrEqual: Less or Equal, with the short-circuit. -/
def LessOrEqual {β : Type} (Ex : β → Closure β → ObjectHolder β) (lhs rhs : ObjectHolder β) :
    Except RtErr Bool :=
  match Less Ex lhs rhs with
  | .error e => .error e
  | .ok true => .ok true
  | .ok false => Equal Ex lhs rhs

/-- runtime::GreaterOrEqual: not Less. -/
def GreaterOrEqual {β : Type} (Ex : β → Closure β → ObjectHolder β) (lhs rhs : ObjectHolder β) :
    Except RtErr Bool :=
  match Less Ex lhs rhs with
  | .error e => .error e
  | .ok b => .ok (!b)

end runtime

namespace examples

open runtime

/-- A method named m with no parameters, used for the inheritance chain. -/
def methodM : Method Unit := { name := "m", formal_params := [], body := () }

/-- The most distant ancestor of the chain; it alone defines m. -/
def classGrand : Class Unit := Class.mk "C3" [methodM] Option.none

/-- The middle class of the chain: no own methods, parent classGrand. -/
def classMid : Class Unit := Class.mk "C2" [] (some classGrand)

/-- The most derived class of the chain: no own methods, parent classMid. -/
def classDerived : Class Unit := Class.mk "C1" [] (some classMid)

/-- An executor whose every method body evaluates to Bool false. -/
def execReturnsFalse : Unit → Closure Unit → ObjectHolder Unit :=
  fun _ _ => some (Object.Bool false)

/-- An executor whose every method body evaluates to the Number 7 (not a
Bool). -/
def execReturnsNumber : Unit → Closure Unit → ObjectHolder Unit :=
  fun _ _ => some (Object.Number 7)

/-- The dunder less-than method of arity 1. -/
def methodLt : Method Unit := { name := "__lt__", formal_params := ["other"], body := () }

/-- The dunder equality method of arity 1. -/
def methodEqU : Method Unit := { name := "__eq__", formal_params := ["other"], body := () }

/-- Class B of the spec scenario: defines __lt__ only. -/
def classB : Class Unit := Class.mk "B" [methodLt] Option.none

/-- An instance of classB with no fields. -/
def instB : ObjectHolder Unit := some (Object.ClassInstance classB [])

/-- A class defining __eq__ only, used for the downcast claim. -/
def classA : Class Unit := Class.mk "A" [methodEqU] Option.none

/-- An instance of classA with no fields. -/
def instA : ObjectHolder Unit := some (Object.ClassInstance classA [])

end examples

namespace parse

theorem indentSteps_eq (m : Nat) : indentSteps m = (m + 1) / 2 := by
  induction m using Nat.strong_induction_on with
  | _ m ih =>
    match m with
    | 0 => rfl
    | 1 => rfl
    | n + 2 =>
      rw [indentSteps, ih n (by omega)]
      omega

theorem countTok_append (t : Token) (xs ys : List Token) :
    countTok t (xs ++ ys) = countTok t xs + countTok t ys := by
  induction xs with
  | nil => simp [countTok]
  | cons x xs ih => simp [countTok, ih]; omega

theorem countTok_replicate (t u : Token) (q : Nat) :
    countTok t (List.replicate q u) = if u = t then q else 0 := by
  induction q with
  | zero => simp [countTok]
  | succ n ih =>
    rw [List.replicate_succ]
    show (if u = t then 1 else 0) + countTok t (List.replicate n u) = if u = t then n + 1 else 0
    rw [ih]
    split <;> omega

theorem netDepth_append (xs ys : List Token) :
    netDepth (xs ++ ys) = netDepth xs + netDepth ys := by
  induction xs with
  | nil => simp [netDepth]
  | cons x xs ih => simp [netDepth, ih]; omega

theorem netDepth_replicate (t : Token) (q : Nat) :
    netDepth (List.replicate q t) = q * tokDelta t := by
  induction q with
  | zero => simp [netDepth]
  | succ n ih =>
    rw [List.replicate_succ]
    show tokDelta t + netDepth (List.replicate n t) = (n + 1 : Nat) * tokDelta t
    rw [ih]
    push_cast
    ring

theorem netDepth_eq_counts (ts : List Token) :
    netDepth ts = (countTok Token.Indent ts : Int) - (countTok Token.Dedent ts : Int) := by
  induction ts with
  | nil => simp [netDepth, countTok]
  | cons t ts ih =>
    show tokDelta t + netDepth ts = _
    rw [ih]
    show _ = ((if t = Token.Indent then 1 else 0) + countTok Token.Indent ts : Nat) -
      (((if t = Token.Dedent then 1 else 0) + countTok Token.Dedent ts : Nat) : Int)
    unfold tokDelta
    split_ifs <;> simp_all <;> omega

theorem balanced_append (xs ys : List Token) (c : Int) :
    prefixBalancedAux c (xs ++ ys) =
      (prefixBalancedAux c xs && prefixBalancedAux (c + netDepth xs) ys) := by
  induction xs generalizing c with
  | nil => simp [prefixBalancedAux, netDepth]
  | cons x xs ih =>
    show (decide (0 ≤ c + tokDelta x) && prefixBalancedAux (c + tokDelta x) (xs ++ ys)) = _
    rw [ih]
    show _ = ((decide (0 ≤ c + tokDelta x) && prefixBalancedAux (c + tokDelta x) xs) &&
      prefixBalancedAux (c + (tokDelta x + netDepth xs)) ys)
    rw [Bool.and_assoc]
    have h : c + tokDelta x + netDepth xs = c + (tokDelta x + netDepth xs) := by ring
    rw [h]

theorem balanced_nonneg (ts : List Token) (c : Int) (hc : 0 ≤ c)
    (h : prefixBalancedAux c ts = true) : 0 ≤ c + netDepth ts := by
  induction ts generalizing c with
  | nil => simpa [netDepth] using hc
  | cons t ts ih =>
    rw [show prefixBalancedAux c (t :: ts) =
      (decide (0 ≤ c + tokDelta t) && prefixBalancedAux (c + tokDelta t) ts) from rfl,
      Bool.and_eq_true, decide_eq_true_eq] at h
    have := ih (c + tokDelta t) h.1 h.2
    show 0 ≤ c + (tokDelta t + netDepth ts)
    omega

theorem balanced_replicate_indent (q : Nat) (c : Int) (hc : 0 ≤ c) :
    prefixBalancedAux c (List.replicate q Token.Indent) = true := by
  induction q generalizing c with
  | zero => rfl
  | succ n ih =>
    rw [List.replicate_succ]
    show (decide (0 ≤ c + tokDelta Token.Indent) &&
      prefixBalancedAux (c + tokDelta Token.Indent) (List.replicate n Token.Indent)) = true
    rw [Bool.and_eq_true, decide_eq_true_eq]
    refine ⟨by simp [tokDelta]; omega, ih (c + tokDelta Token.Indent) (by simp [tokDelta]; omega)⟩

theorem balanced_replicate_dedent (q : Nat) (c : Int) (hq : (q : Int) ≤ c) :
    prefixBalancedAux c (List.replicate q Token.Dedent) = true := by
  induction q generalizing c with
  | zero => rfl
  | succ n ih =>
    rw [List.replicate_succ]
    show (decide (0 ≤ c + tokDelta Token.Dedent) &&
      prefixBalancedAux (c + tokDelta Token.Dedent) (List.replicate n Token.Dedent)) = true
    rw [Bool.and_eq_true, decide_eq_true_eq]
    have hd : tokDelta Token.Dedent = -1 := by simp [tokDelta]
    rw [hd]
    refine ⟨by push_cast at hq; omega, ih (c + -1) (by push_cast at hq; omega)⟩

theorem balanced_single (c : Int) (t : Token) :
    prefixBalancedAux c [t] = decide (0 ≤ c + tokDelta t) := by
  show (decide (0 ≤ c + tokDelta t) && prefixBalancedAux (c + tokDelta t) []) = _
  simp [prefixBalancedAux]

theorem TokInv_depth_nonneg {ts : List Token} {d : Int} (h : TokInv ts d) : 0 ≤ d := by
  obtain ⟨hnet, hbal, -⟩ := h
  have := balanced_nonneg ts 0 (le_refl 0) hbal
  omega

theorem TokInv_append_neutral {ts : List Token} {d : Int} (h : TokInv ts d) {t : Token}
    (h1 : tokDelta t = 0) (h2 : t ≠ Token.Eof) : TokInv (ts ++ [t]) d := by
  obtain ⟨hnet, hbal, heof⟩ := h
  have hnil : netDepth [t] = 0 := by
    show tokDelta t + netDepth [] = 0
    simp [netDepth, h1]
  refine ⟨?_, ?_, ?_⟩
  · rw [netDepth_append, hnil]
    omega
  · unfold prefixBalanced at *
    rw [balanced_append, hbal, Bool.true_and]
    have hge : 0 ≤ netDepth ts := by
      have := balanced_nonneg ts 0 (le_refl 0) hbal
      omega
    show (decide (0 ≤ 0 + netDepth ts + tokDelta t) &&
      prefixBalancedAux (0 + netDepth ts + tokDelta t) []) = true
    rw [h1]
    simp [prefixBalancedAux]
    omega
  · rw [countTok_append, heof]
    show 0 + ((if t = Token.Eof then 1 else 0) + countTok Token.Eof []) = 0
    simp [countTok, h2]

theorem ParseString_inv {st st' : LexState} (h : ParseString st = .ok st')
    (hi : TokInv st.tokens st.depth) : TokInv st'.tokens st'.depth := by
  unfold ParseString at h
  split at h
  · cases h; exact hi
  · split at h
    · split at h
      · cases h
        exact TokInv_append_neutral hi rfl (by simp)
      · exact Except.noConfusion h
    · cases h; exact hi

theorem keywordTok_neutral (s : String) {k : Token} (h : keywordTok s = some k) :
    tokDelta k = 0 ∧ k ≠ Token.Eof := by
  unfold keywordTok at h
  split at h <;> first
    | exact Option.noConfusion h
    | (cases h; exact ⟨rfl, by decide⟩)

theorem idOrKeyword_neutral (w : String) :
    tokDelta (idOrKeyword w) = 0 ∧ idOrKeyword w ≠ Token.Eof := by
  unfold idOrKeyword
  split
  · rename_i k hk
    exact keywordTok_neutral w hk
  · exact ⟨rfl, by simp⟩

theorem ParseKeywords_inv (st : LexState) (hi : TokInv st.tokens st.depth) :
    TokInv (ParseKeywords st).tokens (ParseKeywords st).depth := by
  unfold ParseKeywords
  split
  · exact hi
  · split
    · exact TokInv_append_neutral hi (idOrKeyword_neutral _).1 (idOrKeyword_neutral _).2
    · exact hi

theorem ParseComments_state (st : LexState) :
    (ParseComments st).tokens = st.tokens ∧ (ParseComments st).depth = st.depth := by
  unfold ParseComments
  split <;> exact ⟨rfl, rfl⟩

theorem ParseChars_inv (st : LexState) (hi : TokInv st.tokens st.depth) :
    TokInv (ParseChars st).tokens (ParseChars st).depth := by
  unfold ParseChars
  split
  · exact hi
  · split
    · split
      · rw [(ParseComments_state st).1, (ParseComments_state st).2]
        exact hi
      · split
        · exact TokInv_append_neutral hi rfl (by simp)
        · exact TokInv_append_neutral hi rfl (by simp)
        · exact TokInv_append_neutral hi rfl (by simp)
        · exact TokInv_append_neutral hi rfl (by simp)
        · exact TokInv_append_neutral hi rfl (by simp)
    · exact hi

theorem ParseNumbers_inv {st st' : LexState} (h : ParseNumbers st = .ok st')
    (hi : TokInv st.tokens st.depth) : TokInv st'.tokens st'.depth := by
  unfold ParseNumbers at h
  split at h
  · cases h; exact hi
  · split at h
    · dsimp only [] at h
      split at h
      · cases h
        exact TokInv_append_neutral hi rfl (by simp)
      · exact Except.noConfusion h
    · cases h; exact hi

theorem checkDepth_ok {st st' : LexState} (h : checkDepth st = .ok st') : st' = st := by
  unfold checkDepth at h
  split at h
  · exact Except.noConfusion h
  · cases h; rfl

theorem TokInv_append_replicate_indent {ts : List Token} {d : Int} (h : TokInv ts d) (q : Nat) :
    TokInv (ts ++ List.replicate q Token.Indent) (d + q) := by
  obtain ⟨hnet, hbal, heof⟩ := h
  refine ⟨?_, ?_, ?_⟩
  · rw [netDepth_append, netDepth_replicate]
    show d + (q : Int) = netDepth ts + (q : Int) * tokDelta Token.Indent
    have h1 : tokDelta Token.Indent = 1 := rfl
    rw [h1]
    omega
  · unfold prefixBalanced at *
    rw [balanced_append, hbal, Bool.true_and]
    have hge := balanced_nonneg ts 0 (le_refl 0) hbal
    exact balanced_replicate_indent q (0 + netDepth ts) (by omega)
  · rw [countTok_append, heof, countTok_replicate]
    simp

theorem TokInv_append_replicate_dedent {ts : List Token} {d : Int} (h : TokInv ts d) (q : Nat)
    (hq : (q : Int) ≤ d) : TokInv (ts ++ List.replicate q Token.Dedent) (d - q) := by
  obtain ⟨hnet, hbal, heof⟩ := h
  refine ⟨?_, ?_, ?_⟩
  · rw [netDepth_append, netDepth_replicate]
    show d - (q : Int) = netDepth ts + (q : Int) * tokDelta Token.Dedent
    have h1 : tokDelta Token.Dedent = -1 := rfl
    rw [h1]
    omega
  · unfold prefixBalanced at *
    rw [balanced_append, hbal, Bool.true_and]
    exact balanced_replicate_dedent q (0 + netDepth ts) (by omega)
  · rw [countTok_append, heof, countTok_replicate]
    simp

theorem IndentAdjust_inv {st st' : LexState} {n : Int} (hn : 0 ≤ n)
    (h : IndentAdjust st n = .ok st') (hi : TokInv st.tokens st.depth) :
    TokInv st'.tokens st'.depth := by
  have hd : 0 ≤ st.depth := TokInv_depth_nonneg hi
  unfold IndentAdjust at h
  split at h
  · have hst := checkDepth_ok h
    subst hst
    exact TokInv_append_replicate_indent hi _
  · split at h
    · have hst := checkDepth_ok h
      subst hst
      rename_i hlt hgt
      refine TokInv_append_replicate_dedent hi _ ?_
      rw [indentSteps_eq]
      omega
    · have hst := checkDepth_ok h
      subst hst
      exact hi

theorem ParseIndent_inv {st st' : LexState} (h : ParseIndent st = .ok st')
    (hi : TokInv st.tokens st.depth) : TokInv st'.tokens st'.depth := by
  unfold ParseIndent at h
  split at h
  · cases h; exact hi
  · dsimp only [] at h
    split at h
    · cases h; exact hi
    · exact IndentAdjust_inv (by positivity) h hi

theorem ParseNewLine_inv {st st' : LexState} (h : ParseNewLine st = .ok st')
    (hi : TokInv st.tokens st.depth) : TokInv st'.tokens st'.depth := by
  unfold ParseNewLine at h
  split at h
  · dsimp only [] at h
    revert h
    split
    · intro h
      exact ParseIndent_inv h hi
    · intro h
      exact ParseIndent_inv h hi
    · intro h
      exact ParseIndent_inv h (TokInv_append_neutral hi rfl (by simp))
  · cases h; exact hi

theorem lexStep_inv {st st' : LexState} (h : lexStep st = .ok st')
    (hi : TokInv st.tokens st.depth) : TokInv st'.tokens st'.depth := by
  unfold lexStep at h
  split at h
  · exact Except.noConfusion h
  · rename_i st1 h1
    dsimp only [] at h
    split at h
    · exact Except.noConfusion h
    · rename_i st4 h4
      have i1 := ParseString_inv h1 hi
      have i2 := ParseKeywords_inv st1 i1
      have i3 := ParseChars_inv (ParseKeywords st1) i2
      have i4 := ParseNumbers_inv h4 i3
      have i5 : TokInv (TrimSpaces st4).tokens (TrimSpaces st4).depth := i4
      exact ParseNewLine_inv h i5

theorem lexLoop_inv {fuel : Nat} {st st' : LexState} (h : lexLoop fuel st = .ok st')
    (hi : TokInv st.tokens st.depth) : TokInv st'.tokens st'.depth := by
  induction fuel generalizing st with
  | zero => exact Except.noConfusion h
  | succ n ih =>
    unfold lexLoop at h
    split at h
    · cases h; exact hi
    · split at h
      · exact Except.noConfusion h
      · rename_i st1 h1
        exact ih h (lexStep_inv h1 hi)

theorem getLast?_replicate_succ (k : Nat) (t : Token) :
    (List.replicate (k + 1) t).getLast? = some t := by
  rw [List.replicate_succ' k t, List.getLast?_concat]

theorem getLast?_none_eq_nil {ts : List Token} (h : ts.getLast? = Option.none) : ts = [] := by
  cases ts with
  | nil => rfl
  | cons a l =>
    exfalso
    induction l generalizing a with
    | nil => simp [List.getLast?] at h
    | cons b l ih =>
      rw [List.getLast?_cons_cons] at h
      exact ih b h

theorem getD_of_getLast? : ∀ (l : List Token) (x : Token), l.getLast? = some x →
    l.getD (l.length - 1) Token.Eof = x
  | [], x, h => by simp [List.getLast?] at h
  | [a], x, h => by
    simp [List.getLast?] at h
    simp [List.getD, h]
  | a :: b :: l, x, h => by
    rw [List.getLast?_cons_cons] at h
    have ih := getD_of_getLast? (b :: l) x h
    have hlen : (a :: b :: l).length - 1 = ((b :: l).length - 1) + 1 := by simp
    rw [hlen, List.getD_cons_succ]
    exact ih

theorem TokInv_closeNewline {ts : List Token} {d : Int} (h : TokInv ts d) :
    TokInv (closeNewline ts) d := by
  unfold closeNewline
  split
  · exact h
  · exact h
  · exact TokInv_append_neutral h rfl (by simp)

theorem closeNewline_shape (ts : List Token) :
    closeNewline ts = [] ∨ (closeNewline ts).getLast? = some Token.Newline := by
  unfold closeNewline
  split
  · rename_i hl
    left
    exact getLast?_none_eq_nil hl
  · rename_i hl
    right
    exact hl
  · right
    rw [List.getLast?_concat]

theorem FinalizeTokens_spec {st : LexState} (hi : TokInv st.tokens st.depth) :
    countTok Token.Eof (FinalizeTokens st) = 1 ∧
    (FinalizeTokens st).getLast? = some Token.Eof ∧
    (FinalizeTokens st = [Token.Eof] ∨ penultTok (FinalizeTokens st) = some Token.Newline ∨
      penultTok (FinalizeTokens st) = some Token.Dedent) ∧
    countTok Token.Indent (FinalizeTokens st) = countTok Token.Dedent (FinalizeTokens st) ∧
    prefixBalanced (FinalizeTokens st) = true := by
  have hd0 : 0 ≤ st.depth := TokInv_depth_nonneg hi
  obtain ⟨hnet, hbal, heof⟩ := TokInv_closeNewline hi
  have hqd : (st.depth.toNat : Int) = st.depth := Int.toNat_of_nonneg hd0
  have hfin : FinalizeTokens st =
      closeNewline st.tokens ++ List.replicate st.depth.toNat Token.Dedent ++ [Token.Eof] := rfl
  refine ⟨?_, ?_, ?_, ?_, ?_⟩
  · rw [hfin, countTok_append, countTok_append, heof, countTok_replicate]
    simp [countTok]
  · rw [hfin, List.getLast?_concat]
  · rw [hfin]
    unfold penultTok
    rw [List.dropLast_concat]
    rcases hq : st.depth.toNat with _ | k
    · rcases closeNewline_shape st.tokens with hsh | hsh
      · left
        rw [hsh]
        rfl
      · right
        left
        simpa using hsh
    · right
      right
      rw [List.getLast?_append_of_ne_nil _ (by simp)]
      exact getLast?_replicate_succ k Token.Dedent
  · rw [hfin, countTok_append, countTok_append, countTok_append, countTok_append,
      countTok_replicate, countTok_replicate]
    have hcounts := netDepth_eq_counts (closeNewline st.tokens)
    rw [← hnet] at hcounts
    simp only [countTok, reduceCtorEq, if_false, if_true]
    omega
  · unfold prefixBalanced
    rw [hfin, balanced_append, balanced_append]
    unfold prefixBalanced at hbal
    rw [hbal]
    have h1 : prefixBalancedAux (0 + netDepth (closeNewline st.tokens))
        (List.replicate st.depth.toNat Token.Dedent) = true := by
      refine balanced_replicate_dedent _ _ ?_
      omega
    rw [h1]
    have h2 : netDepth (List.replicate st.depth.toNat Token.Dedent) = -st.depth := by
      rw [netDepth_replicate]
      show (st.depth.toNat : Int) * tokDelta Token.Dedent = -st.depth
      have : tokDelta Token.Dedent = -1 := rfl
      rw [this]
      omega
    rw [netDepth_append, h2, balanced_single]
    have h3 : tokDelta Token.Eof = 0 := rfl
    rw [h3]
    simp
    omega

theorem ParseInputStream_ok {fuel : Nat} {input : List Char} {ts : List Token}
    (h : ParseInputStream fuel input = .ok ts) :
    ∃ st : LexState, TokInv st.tokens st.depth ∧ ts = FinalizeTokens st := by
  unfold ParseInputStream at h
  split at h
  · exact Except.noConfusion h
  · rename_i st hst
    cases h
    exact ⟨st, lexLoop_inv hst ⟨rfl, rfl, rfl⟩, rfl⟩

theorem takeWhile_spaces (k : Nat) (c : Char) (rest : List Char) (hc : c ≠ ' ') :
    (List.replicate k ' ' ++ c :: rest).takeWhile (fun x => x = ' ') = List.replicate k ' ' := by
  induction k with
  | zero => simp [List.takeWhile_cons, hc]
  | succ n ih => simp [List.replicate_succ, List.takeWhile_cons, ih]

theorem dropWhile_spaces (k : Nat) (c : Char) (rest : List Char) (hc : c ≠ ' ') :
    (List.replicate k ' ' ++ c :: rest).dropWhile (fun x => x = ' ') = c :: rest := by
  induction k with
  | zero => simp [List.dropWhile_cons, hc]
  | succ n ih => simp [List.replicate_succ, List.dropWhile_cons, ih]

theorem dropWhile_replicate_append (k : Nat) (input : List Char) :
    (List.replicate k ' ' ++ input).dropWhile (fun c => c = ' ') =
      input.dropWhile (fun c => c = ' ') := by
  induction k with
  | zero => simp
  | succ n ih => simp [List.replicate_succ, List.dropWhile_cons, ih]

theorem IndentAdjust_cases (st : LexState) (d k : Nat) (hdep : st.depth = (d : Int)) :
    (2 * d < k → IndentAdjust st (k : Int) = .ok { st with
        tokens := st.tokens ++ List.replicate ((k - 2 * d + 1) / 2) Token.Indent,
        depth := (d : Int) + ((k - 2 * d + 1) / 2 : Nat) }) ∧
    (k < 2 * d → IndentAdjust st (k : Int) = .ok { st with
        tokens := st.tokens ++ List.replicate ((2 * d - k + 1) / 2) Token.Dedent,
        depth := (d : Int) - ((2 * d - k + 1) / 2 : Nat) }) ∧
    (k = 2 * d → IndentAdjust st (k : Int) = .ok st) := by
  refine ⟨?_, ?_, ?_⟩ <;> intro hk
  · have hcond : st.depth * 2 < (k : Int) := by rw [hdep]; omega
    unfold IndentAdjust
    rw [if_pos hcond]
    dsimp only []
    have hq : ((k : Int) - st.depth * 2).toNat = k - 2 * d := by rw [hdep]; omega
    rw [hq, indentSteps_eq]
    unfold checkDepth
    rw [if_neg (by dsimp only []; rw [hdep]; omega)]
    rw [hdep]
  · have hcond1 : ¬ (st.depth * 2 < (k : Int)) := by rw [hdep]; omega
    have hcond2 : (k : Int) < st.depth * 2 := by rw [hdep]; omega
    unfold IndentAdjust
    rw [if_neg hcond1, if_pos hcond2]
    dsimp only []
    have hq : (st.depth * 2 - (k : Int)).toNat = 2 * d - k := by rw [hdep]; omega
    rw [hq, indentSteps_eq]
    unfold checkDepth
    rw [if_neg (by dsimp only []; rw [hdep]; omega)]
    rw [hdep]
  · have hcond1 : ¬ (st.depth * 2 < (k : Int)) := by rw [hdep]; omega
    have hcond2 : ¬ ((k : Int) < st.depth * 2) := by rw [hdep]; omega
    unfold IndentAdjust
    rw [if_neg hcond1, if_neg hcond2]
    unfold checkDepth
    rw [if_neg (by rw [hdep]; omega)]

theorem ParseIndent_cons {st : LexState} {x : Char} {xs : List Char} (hin : st.input = x :: xs) :
    ParseIndent st =
      (match st.input.dropWhile (fun c => c = ' ') with
       | '\n' :: _ => .ok { st with input := st.input.dropWhile (fun c => c = ' ') }
       | _ => IndentAdjust { st with input := st.input.dropWhile (fun c => c = ' ') }
         (((st.input.takeWhile (fun c => c = ' ')).length : Nat) : Int)) := by
  unfold ParseIndent
  rw [hin]

theorem ParseIndent_line {st : LexState} (k : Nat) (c : Char) (rest : List Char)
    (hin : st.input = List.replicate k ' ' ++ c :: rest) (hc1 : c ≠ '\n') (hc2 : c ≠ ' ') :
    ParseIndent st = IndentAdjust { st with input := c :: rest } (k : Int) := by
  obtain ⟨x, xs, hx⟩ : ∃ x xs, st.input = x :: xs := by
    rw [hin]; cases k <;> exact ⟨_, _, rfl⟩
  rw [ParseIndent_cons hx, hin, takeWhile_spaces k c rest hc2, dropWhile_spaces k c rest hc2,
    List.length_replicate]
  split
  · rename_i heq
    injection heq with h1 _
    exact absurd h1 hc1
  · rfl

theorem ParseIndent_blank {st : LexState} (k : Nat) (rest : List Char)
    (hin : st.input = List.replicate k ' ' ++ '\n' :: rest) :
    ParseIndent st = .ok { st with input := '\n' :: rest } := by
  obtain ⟨x, xs, hx⟩ : ∃ x xs, st.input = x :: xs := by
    rw [hin]; cases k <;> exact ⟨_, _, rfl⟩
  rw [ParseIndent_cons hx, hin, dropWhile_spaces k '\n' rest (by decide)]
  rfl

end parse

section claims

open parse runtime examples

/-- C1: the claim asserts that Class::GetMethod on the most derived class of a
chain finds the first definition scanning toward the root, so that a method
defined only in a grandparent is still reachable.  On the code this fails:
Class::Class seeds the vftable from the parent's own methods_ vector, not from
the parent's vftable, so a method defined only two levels up is lost.  Here m
is defined only on C3 in the chain C1 <: C2 <: C3: lookup from C2 finds it,
lookup from C1 returns null. -/
theorem C1_grandparent_method_unreachable :
    Class.GetMethod classDerived "m" = Option.none ∧
    Class.GetMethod classMid "m" = some methodM ∧
    Class.GetMethod classGrand "m" = some methodM := by
  decide

/-- C2 counterexample: for the concrete class B defining only __lt__ (whose
body evaluates to Bool false), Greater on two instances of B does not return
false as the claim states; it raises the RuntimeError of Equal, because after
Less yields false the Equal disjunct is evaluated and B has no __eq__. -/
theorem C2_counterexample :
    Greater execReturnsFalse instB instB =
      .error (.RuntimeError "Cannot compare objects for equality") ∧
    Greater execReturnsFalse instB instB ≠ .ok false := by
  decide

/-- C3: on the source text 'backslash q' inside a string literal — an escape
outside the recognized set — lexer construction fails, but with
std::logic_error, not with LexerError as the claim (and the spec's single
error kind design) requires: the default branch of the escape switch in
Lexer::ParseString throws std::logic_error while every sibling error path
throws LexerError. -/
theorem C3_bad_escape_raises_logic_error :
    ParseInputStream 10 ['\'', '\\', 'q', '\''] =
      .error (.LogicError "ParseString() has encountered unknown escape sequence \\q") := by
  decide

/-- C4 counterexample: a line with 3 leading spaces at current depth 0 yields
two Indent tokens, not the single Indent the claim derives from rounding
floor(3/2) = 1: the emission loop subtracts 2 until the space surplus is
exhausted, which rounds up. -/
theorem C4_counterexample :
    ParseInputStream 10 ['x', '\n', ' ', ' ', ' ', 'y', '\n'] =
      .ok [Token.Id "x", Token.Newline, Token.Indent, Token.Indent,
           Token.Id "y", Token.Newline, Token.Dedent, Token.Dedent, Token.Eof] ∧
    countTok Token.Indent
      [Token.Id "x", Token.Newline, Token.Indent, Token.Indent,
       Token.Id "y", Token.Newline, Token.Dedent, Token.Dedent, Token.Eof] = 2 := by
  decide

/-- C5 counterexample: a comment-only line with two leading spaces at depth 0
does not have its indent handling suppressed: Lexer::ParseIndent only skips
the comparison when the first non-space character is a newline, so the
comment line emits an Indent, then a Newline after the comment (the previous
token is no longer a Newline), then a Dedent on the next line — contradicting
the claim that a comment-only line contributes no Indent, Dedent or Newline
and leaves the depth unchanged. -/
theorem C5_counterexample :
    ParseInputStream 10 ['x', '\n', ' ', ' ', '#', ' ', 'c', '\n', 'y', '\n'] =
      .ok [Token.Id "x", Token.Newline, Token.Indent, Token.Newline,
           Token.Dedent, Token.Id "y", Token.Newline, Token.Eof] ∧
    countTok Token.Indent
      [Token.Id "x", Token.Newline, Token.Indent, Token.Newline,
       Token.Dedent, Token.Id "y", Token.Newline, Token.Eof] = 1 := by
  decide

/-- C6 counterexample: when trailing Dedents are emitted at end of stream they
are appended after the closing Newline, so the token immediately preceding Eof
is a Dedent although the stream is not the singleton Eof — contradicting the
claim that it is a Newline whenever the stream is not Eof alone. -/
theorem C6_counterexample :
    ParseInputStream 10 ['x', '\n', ' ', ' ', 'y', '\n'] =
      .ok [Token.Id "x", Token.Newline, Token.Indent, Token.Id "y",
           Token.Newline, Token.Dedent, Token.Eof] ∧
    penultTok [Token.Id "x", Token.Newline, Token.Indent, Token.Id "y",
               Token.Newline, Token.Dedent, Token.Eof] = some Token.Dedent ∧
    [Token.Id "x", Token.Newline, Token.Indent, Token.Id "y",
     Token.Newline, Token.Dedent, Token.Eof] ≠ [Token.Eof] := by
  decide

/-- C8 counterexample: an input whose first physical line begins with spaces
before an ordinary token lexes successfully — the constructor's initial
TrimSpaces silently discards the leading indentation — contradicting the claim
that such inputs fail with LexerError. -/
theorem C8_counterexample :
    ParseInputStream 10 [' ', ' ', 'x', '\n'] =
      .ok [Token.Id "x", Token.Newline, Token.Eof] := by
  decide

/-- C2 (amended): for a class defining __lt__ of arity 1 whose body evaluates
to Bool false and defining no __eq__, Greater on two instances raises
RuntimeError (cannot compare for equality) instead of returning false: Less
yields false, so the Equal disjunct is evaluated and falls through to the
throw; no __gt__ is ever consulted. -/
theorem C2_greater_raises {β : Type} (Ex : β → Closure β → ObjectHolder β)
    (c : Class β) (f1 f2 : Closure β) (mlt : Method β)
    (hlt : c.GetMethod "__lt__" = some mlt)
    (harity : mlt.formal_params.length = 1)
    (hbody : ∀ cl, Ex mlt.body cl = some (Object.Bool false))
    (heq : c.GetMethod "__eq__" = Option.none) :
    Greater Ex (some (Object.ClassInstance c f1)) (some (Object.ClassInstance c f2)) =
      .error (.RuntimeError "Cannot compare objects for equality") := by
  have hLess : Less Ex (some (Object.ClassInstance c f1)) (some (Object.ClassInstance c f2)) =
      .ok false := by
    simp [Less, TryAsNumber, TryAsString, TryAsBool, TryAsClassInstance, HasMethod, Call,
      hlt, harity, hbody]
  have hEqual : Equal Ex (some (Object.ClassInstance c f1)) (some (Object.ClassInstance c f2)) =
      .error (.RuntimeError "Cannot compare objects for equality") := by
    simp [Equal, TryAsNumber, TryAsString, TryAsBool, TryAsClassInstance, HasMethod, heq]
  simp [Greater, hLess, hEqual]

/-- C2 witness: the amended claim at the concrete class B of the scenario. -/
theorem C2_witness :
    Greater execReturnsFalse instB instB =
      .error (.RuntimeError "Cannot compare objects for equality") :=
  C2_greater_raises execReturnsFalse classB [] [] methodLt (by decide) (by decide)
    (fun _ => rfl) (by decide)

/-- C4 (amended): on a line with k leading spaces followed by an ordinary
character, the lexer rounds the indent change up, not down: when k exceeds
twice the depth d it emits ceil((k - 2d)/2) = (k - 2d + 1)/2 Indents, when k
falls short it emits (2d - k + 1)/2 Dedents, and equality emits nothing.  In
particular 3 leading spaces at depth 0 yield two Indents (ceil(3/2)), not the
one Indent of floor(3/2). -/
theorem C4_indent_rounding (st : LexState) (d k : Nat) (c : Char) (rest : List Char)
    (hdep : st.depth = (d : Int)) (hin : st.input = List.replicate k ' ' ++ c :: rest)
    (hc1 : c ≠ '\n') (hc2 : c ≠ ' ') :
    (2 * d < k → ParseIndent st = .ok { st with
        input := c :: rest,
        tokens := st.tokens ++ List.replicate ((k - 2 * d + 1) / 2) Token.Indent,
        depth := (d : Int) + ((k - 2 * d + 1) / 2 : Nat) }) ∧
    (k < 2 * d → ParseIndent st = .ok { st with
        input := c :: rest,
        tokens := st.tokens ++ List.replicate ((2 * d - k + 1) / 2) Token.Dedent,
        depth := (d : Int) - ((2 * d - k + 1) / 2 : Nat) }) ∧
    (k = 2 * d → ParseIndent st = .ok { st with input := c :: rest }) := by
  have hred := ParseIndent_line k c rest hin hc1 hc2
  have hadj := IndentAdjust_cases { st with input := c :: rest } d k hdep
  refine ⟨?_, ?_, ?_⟩ <;> intro hk
  · rw [hred]
    exact hadj.1 hk
  · rw [hred]
    exact hadj.2.1 hk
  · rw [hred]
    exact hadj.2.2 hk

/-- C4 witness: the amended claim at 3 leading spaces and depth 0, giving two
Indents and depth 2. -/
theorem C4_witness :
    ParseIndent { input := [' ', ' ', ' ', 'x'], tokens := [], depth := 0 } =
      .ok { input := ['x'], tokens := [Token.Indent, Token.Indent], depth := 2 } := by
  have h := (C4_indent_rounding { input := [' ', ' ', ' ', 'x'], tokens := [], depth := 0 }
    0 3 'x' [] rfl rfl (by decide) (by decide)).1 (by omega)
  exact h.trans (by decide)

/-- C5 (amended): a purely blank line (spaces then a newline) is suppressed:
indent handling leaves the token vector and the depth unchanged and only skips
the spaces, and the following ParseNewLine emits no Newline token when the
last emitted token is already a Newline or no token exists.  Comment-only
lines enjoy no such suppression of indent handling (see the counterexample):
their leading spaces go through the ordinary indent comparison. -/
theorem C5_blank_line_suppression :
    (∀ (st : LexState) (k : Nat) (rest : List Char),
      st.input = List.replicate k ' ' ++ '\n' :: rest →
      ParseIndent st = .ok { st with input := '\n' :: rest }) ∧
    (∀ (st : LexState) (rest : List Char),
      st.input = '\n' :: rest →
      (st.tokens = [] ∨ st.tokens.getLast? = some Token.Newline) →
      ParseNewLine st = ParseIndent { st with input := rest }) := by
  constructor
  · intro st k rest hin
    exact ParseIndent_blank k rest hin
  · intro st rest hin hlast
    unfold ParseNewLine
    rw [hin]
    dsimp only []
    rcases hlast with hnil | hl
    · have h : st.tokens.getLast? = Option.none := by rw [hnil]; rfl
      rw [h]
      rfl
    · rw [hl]
      rfl

/-- C5 witness: both suppression parts at a concrete blank line following a
Newline token. -/
theorem C5_witness :
    ParseIndent { input := [' ', ' ', '\n'], tokens := [Token.Newline], depth := 0 } =
      .ok { input := ['\n'], tokens := [Token.Newline], depth := 0 } ∧
    ParseNewLine { input := ['\n'], tokens := [Token.Newline], depth := 0 } =
      ParseIndent { input := [], tokens := [Token.Newline], depth := 0 } := by
  constructor
  · exact C5_blank_line_suppression.1
      { input := [' ', ' ', '\n'], tokens := [Token.Newline], depth := 0 } 2 [] rfl
  · exact C5_blank_line_suppression.2
      { input := ['\n'], tokens := [Token.Newline], depth := 0 } [] rfl (Or.inr rfl)

/-- C6 (amended): every successfully lexed stream contains exactly one Eof, it
is the last token, and the token immediately before it is a Newline or a
Dedent (trailing Dedents are emitted after the closing Newline), unless the
stream is the singleton Eof. -/
theorem C6_stream_termination (fuel : Nat) (input : List Char) (ts : List Token)
    (h : ParseInputStream fuel input = .ok ts) :
    countTok Token.Eof ts = 1 ∧ ts.getLast? = some Token.Eof ∧
    (ts = [Token.Eof] ∨ penultTok ts = some Token.Newline ∨
      penultTok ts = some Token.Dedent) := by
  obtain ⟨st, hi, rfl⟩ := ParseInputStream_ok h
  exact ⟨(FinalizeTokens_spec hi).1, (FinalizeTokens_spec hi).2.1,
    (FinalizeTokens_spec hi).2.2.1⟩

/-- C6 witness: the amended claim at a concrete successful run. -/
theorem C6_witness :
    countTok Token.Eof [Token.Id "x", Token.Newline, Token.Eof] = 1 ∧
    [Token.Id "x", Token.Newline, Token.Eof].getLast? = some Token.Eof ∧
    ([Token.Id "x", Token.Newline, Token.Eof] = [Token.Eof] ∨
      penultTok [Token.Id "x", Token.Newline, Token.Eof] = some Token.Newline ∨
      penultTok [Token.Id "x", Token.Newline, Token.Eof] = some Token.Dedent) :=
  C6_stream_termination 10 ['x', '\n'] [Token.Id "x", Token.Newline, Token.Eof] (by decide)

/-- C7: on every successfully lexed stream the Indent and Dedent counts are
equal (the finalization emits one trailing Dedent per open level), and in no
prefix of the stream do the Dedents outnumber the Indents; the lexer guards a
negative depth with a LexerError (the check in ParseIndent), so a successful
run never dips below zero. -/
theorem C7_indent_dedent_balance (fuel : Nat) (input : List Char) (ts : List Token)
    (h : ParseInputStream fuel input = .ok ts) :
    countTok Token.Indent ts = countTok Token.Dedent ts ∧ prefixBalanced ts = true := by
  obtain ⟨st, hi, rfl⟩ := ParseInputStream_ok h
  exact ⟨(FinalizeTokens_spec hi).2.2.2.1, (FinalizeTokens_spec hi).2.2.2.2⟩

/-- C7 witness: the balance invariant at a concrete run with one indent
level. -/
theorem C7_witness :
    countTok Token.Indent
        [Token.Id "x", Token.Newline, Token.Indent, Token.Id "y",
         Token.Newline, Token.Dedent, Token.Eof] =
      countTok Token.Dedent
        [Token.Id "x", Token.Newline, Token.Indent, Token.Id "y",
         Token.Newline, Token.Dedent, Token.Eof] ∧
    prefixBalanced
        [Token.Id "x", Token.Newline, Token.Indent, Token.Id "y",
         Token.Newline, Token.Dedent, Token.Eof] = true :=
  C7_indent_dedent_balance 10 ['x', '\n', ' ', ' ', 'y', '\n']
    [Token.Id "x", Token.Newline, Token.Indent, Token.Id "y",
     Token.Newline, Token.Dedent, Token.Eof] (by decide)

/-- C8 (amended): leading spaces at the very start of the input are discarded
by the constructor's initial TrimSpaces before tokenization, so a source that
begins indented lexes exactly as the same source without the leading spaces —
in particular it does not raise LexerError on account of the indentation. -/
theorem C8_leading_indentation_ignored (k fuel : Nat) (input : List Char) :
    ParseInputStream fuel (List.replicate k ' ' ++ input) = ParseInputStream fuel input := by
  unfold ParseInputStream
  rw [dropWhile_replicate_append]

/-- C9: NextToken advances the cursor one position and returns the token then
under the cursor; on the last token it stays put and returns it, and that
token is always Eof on a successfully constructed lexer. -/
theorem C9_next_token (fuel : Nat) (input : List Char) (ts : List Token)
    (h : ParseInputStream fuel input = .ok ts) (i : Nat) (hi : i < ts.length) :
    (i + 1 < ts.length →
      NextToken { tokens := ts, cursor := i } =
        ({ tokens := ts, cursor := i + 1 }, ts.getD (i + 1) Token.Eof)) ∧
    (i + 1 = ts.length →
      NextToken { tokens := ts, cursor := i } =
        ({ tokens := ts, cursor := i }, ts.getD i Token.Eof) ∧
      ts.getD i Token.Eof = Token.Eof) := by
  constructor
  · intro hlt
    unfold NextToken
    rw [if_neg (by dsimp only []; omega)]
  · intro heq
    unfold NextToken
    rw [if_pos (by dsimp only []; omega)]
    refine ⟨rfl, ?_⟩
    obtain ⟨st, hinv, rfl⟩ := ParseInputStream_ok h
    have hlast := (FinalizeTokens_spec hinv).2.1
    have hgd := getD_of_getLast? (FinalizeTokens st) Token.Eof hlast
    have hlen : i = (FinalizeTokens st).length - 1 := by omega
    rw [hlen]
    exact hgd

/-- C9 witness: both cursor behaviours on the lexed stream of one line. -/
theorem C9_witness :
    NextToken { tokens := [Token.Id "x", Token.Newline, Token.Eof], cursor := 1 } =
      ({ tokens := [Token.Id "x", Token.Newline, Token.Eof], cursor := 2 }, Token.Eof) ∧
    NextToken { tokens := [Token.Id "x", Token.Newline, Token.Eof], cursor := 2 } =
      ({ tokens := [Token.Id "x", Token.Newline, Token.Eof], cursor := 2 }, Token.Eof) := by
  constructor
  · have h := (C9_next_token 10 ['x', '\n'] [Token.Id "x", Token.Newline, Token.Eof]
      (by decide) 1 (by decide)).1 (by decide)
    exact h.trans (by decide)
  · have h := (C9_next_token 10 ['x', '\n'] [Token.Id "x", Token.Newline, Token.Eof]
      (by decide) 2 (by decide)).2 (by decide)
    exact h.1.trans (by decide)

/-- C10: in the dunder branch of Equal (method __eq__) and of Less (method
__lt__) the handle returned by the user-defined method is downcast to Bool
and dereferenced without a check: when the call result is a Bool the relation
returns its value, and when it is anything else (a non-Bool value or an empty
handle) the null pointer produced by TryAs is dereferenced — the modelled
NullDeref outcome.  The dereference is thus safe exactly under the unstated
precondition that the user method returns a Bool. -/
theorem C10_dunder_downcast {β : Type} (Ex : β → Closure β → ObjectHolder β)
    (c : Class β) (f : Closure β) (rhs : ObjectHolder β) :
    (∀ meq, c.GetMethod "__eq__" = some meq → meq.formal_params.length = 1 →
      Equal Ex (some (Object.ClassInstance c f)) rhs =
        match TryAsBool (Ex meq.body (methodClosure c f meq [rhs])) with
        | some b => .ok b
        | Option.none => .error .NullDeref) ∧
    (∀ mlt, c.GetMethod "__lt__" = some mlt → mlt.formal_params.length = 1 →
      Less Ex (some (Object.ClassInstance c f)) rhs =
        match TryAsBool (Ex mlt.body (methodClosure c f mlt [rhs])) with
        | some b => .ok b
        | Option.none => .error .NullDeref) := by
  constructor
  · intro meq hmeq harity
    rcases hn : TryAsNumber rhs with _ | a <;>
      rcases hs : TryAsString rhs with _ | b <;>
        rcases hb : TryAsBool rhs with _ | bb <;>
          simp [Equal, TryAsNumber, TryAsString, TryAsBool, TryAsClassInstance, HasMethod, Call,
            hmeq, harity, hn, hs, hb]
  · intro mlt hmlt harity
    rcases hn : TryAsNumber rhs with _ | a <;>
      rcases hs : TryAsString rhs with _ | b <;>
        rcases hb : TryAsBool rhs with _ | bb <;>
          simp [Less, TryAsNumber, TryAsString, TryAsBool, TryAsClassInstance, HasMethod, Call,
            hmlt, harity, hn, hs, hb]

/-- C10 witness: a __eq__ body returning the Number 7 is dereferenced into the
NullDeref outcome, and a __lt__ body returning Bool false yields ok false. -/
theorem C10_witness :
    Equal execReturnsNumber instA (some (Object.Number 3)) = .error .NullDeref ∧
    Less execReturnsFalse instB (some (Object.Number 3)) = .ok false := by
  constructor
  · have h := (C10_dunder_downcast execReturnsNumber classA [] (some (Object.Number 3))).1
      methodEqU (by decide) (by decide)
    exact h.trans (by decide)
  · have h := (C10_dunder_downcast execReturnsFalse classB [] (some (Object.Number 3))).2
      methodLt (by decide) (by decide)
    exact h.trans (by decide)

end claims
